import Mathlib

/-!
# CuPADMAN: verification of the distributed EMC iteration engine

Shallow embedding of the EMC reconstruction engine of this repository
(`src/emc.py`, `src/cupadman/emc.py`, `src/kernels.py`) over exact rational
arithmetic.  Machine doubles are modelled as `ℚ`; the transcendental
primitives that the code applies pointwise (`cp.exp` in `_normalize_prob`,
`cos`/`sin` of the orientation angle inside the CUDA kernels, and the
forward-render kernel `slice_gen`) are passed in as explicit function
parameters, since every claim under study is independent of their analytic
form.  All other arithmetic is translated exactly.

Conventions:
* a dense device array `a` of length `n` is a function `ℕ → ℚ` whose
  meaningful entries are `a 0, …, a (n-1)`;
* an MPI `Allreduce(MAX)` over per-rank reductions is the two-level
  maximum over ranks of per-rank maxima, `Allreduce(SUM)` the two-level
  sum, and `Reduce(SUM, root)` the sum over ranks;
* CUDA atomic adds from concurrently running threads commute, so a grid
  launch is modelled as a sequential fold over the thread indices.
-/

namespace CuPADMAN

/-- `P_MIN = 1.e-6`, the probability floor of both `src/emc.py` and
`src/cupadman/emc.py`. -/
def P_MIN : ℚ := 1/1000000

/-- `MEM_THRESH = 0.8`, the memory-safety threshold of `src/cupadman/emc.py`. -/
def MEM_THRESH : ℚ := 4/5

/-! ## Orientation striping

`src/emc.py` line 107 (and `src/cupadman/emc.py` line 131): each rank
iterates over `range(rank, num_rot, num_proc)`; the `i`-th owned
orientation is `rank + i * num_proc`. -/

/-- Global orientation index of the `i`-th orientation owned by `rank`
among `k` processes: `rank + i * k`. -/
def ownedIdx (k rank i : ℕ) : ℕ := rank + i * k

/-- The list `range(rank, n, k)` of orientation indices iterated by `rank`
(`src/emc.py` line 107).  Python's `range(start, stop, step)` has
`max(0, ⌈(stop-start)/step⌉)` elements. -/
def ownedList (rank k n : ℕ) : List ℕ :=
  (List.range ((n - rank + k - 1) / k)).map (fun i => ownedIdx k rank i)

/-! ## Per-frame maxima

`self.prob.max(0)` reduces each frame column over the locally owned rows;
the subsequent `Allreduce(MAX)` reduces over ranks.  `rowsMax m f` is the
maximum of `f 0, …, f (m-1)` (on an empty axis cupy raises, so the `0`
value of the `m = 0` case is never exercised under the claims' hypotheses). -/

/-- Maximum of the first `m` values of `f` (`0` if `m = 0`). -/
def rowsMax : ℕ → (ℕ → ℚ) → ℚ
  | 0, _ => 0
  | 1, f => f 0
  | m + 2, f => max (rowsMax (m + 1) f) (f (m + 1))

theorem le_rowsMax (f : ℕ → ℚ) : ∀ m i : ℕ, i < m → f i ≤ rowsMax m f := by
  intro m
  induction m with
  | zero => omega
  | succ m ih =>
    intro i hi
    match m, hi with
    | 0, hi =>
      interval_cases i
      simp [rowsMax]
    | m + 1, hi =>
      rcases Nat.lt_succ_iff_lt_or_eq.mp hi with h | h
      · exact le_trans (ih i h) (le_max_left _ _)
      · subst h; exact le_max_right _ _

theorem rowsMax_le (f : ℕ → ℚ) (a : ℚ) :
    ∀ m : ℕ, 0 < m → (∀ i : ℕ, i < m → f i ≤ a) → rowsMax m f ≤ a := by
  intro m
  induction m with
  | zero => omega
  | succ m ih =>
    intro _ hb
    match m with
    | 0 => exact hb 0 (by omega)
    | m + 1 =>
      refine max_le (ih (by omega) fun i hi => hb i (by omega)) (hb (m + 1) (by omega))

theorem rowsMax_mem (f : ℕ → ℚ) : ∀ m : ℕ, 0 < m → ∃ i : ℕ, i < m ∧ rowsMax m f = f i := by
  intro m
  induction m with
  | zero => omega
  | succ m ih =>
    intro _
    match m with
    | 0 => exact ⟨0, by omega, rfl⟩
    | m + 1 =>
      rcases ih (by omega) with ⟨i, hi, hv⟩
      rcases le_or_lt (f (m + 1)) (rowsMax (m + 1) f) with h | h
      · refine ⟨i, by omega, ?_⟩
        rw [show rowsMax (m + 1 + 1) f = max (rowsMax (m + 1) f) (f (m + 1)) from rfl,
          max_eq_left h, hv]
      · refine ⟨m + 1, by omega, ?_⟩
        rw [show rowsMax (m + 1 + 1) f = max (rowsMax (m + 1) f) (f (m + 1)) from rfl,
          max_eq_right h.le]

/-! ## Cross-process probability normalization (`_normalize_prob`)

Both sources implement the same distributed log-sum-exp
(`src/emc.py` lines 118-134, `src/cupadman/emc.py` lines 147-163), except
for the final flooring line:
* `src/emc.py` line 134: `self.prob[self.prob < P_MIN] = 0` sets
  sub-threshold entries to `0`;
* `src/cupadman/emc.py` line 163: `self.prob.clip(a_min=P_MIN, out=self.prob)`
  raises them to `P_MIN`.

The pipeline is generic in the matrix of unnormalized log-probabilities
`L : ℕ → ℕ → ℚ` (global orientation index, frame index), in the process
count `k`, in the per-rank row count `m` (uniform, i.e. `k ∣ num_rot`),
and in the pointwise exponential `fexp`.  Rank `ρ` holds row `i` of its
local matrix for global orientation `ownedIdx k ρ i`. -/

/-- `src/emc.py` line 134: sub-threshold entries are zeroed. -/
def emcFloor (x : ℚ) : ℚ := if x < P_MIN then 0 else x

/-- `src/cupadman/emc.py` line 163: entries are clipped up to `P_MIN`. -/
def cupFloor (x : ℚ) : ℚ := max P_MIN x

/-- Per-rank per-frame maximum `max_exp_p = self.prob.max(0)` of rank `ρ`. -/
def localMax (k m : ℕ) (L : ℕ → ℕ → ℚ) (ρ d : ℕ) : ℚ :=
  rowsMax m (fun i => L (ownedIdx k ρ i) d)

/-- Global per-frame maximum `max_exp`, the `Allreduce(MAX)` over ranks of
the local maxima. -/
def gMaxD (k m : ℕ) (L : ℕ → ℕ → ℚ) (d : ℕ) : ℚ :=
  rowsMax k (fun ρ => localMax k m L ρ d)

/-- Entry of `self.prob` after `cp.exp(self.prob - max_exp)`. -/
def expP (k m : ℕ) (L : ℕ → ℕ → ℚ) (fexp : ℚ → ℚ) (r d : ℕ) : ℚ :=
  fexp (L r d - gMaxD k m L d)

/-- Per-rank per-frame partial sum `psum_p = self.prob.sum(0)` of rank `ρ`. -/
def localSum (k m : ℕ) (L : ℕ → ℕ → ℚ) (fexp : ℚ → ℚ) (ρ d : ℕ) : ℚ :=
  ∑ i ∈ Finset.range m, expP k m L fexp (ownedIdx k ρ i) d

/-- Global per-frame normalizer `psum`, the `Allreduce(SUM)` over ranks. -/
def gSumD (k m : ℕ) (L : ℕ → ℕ → ℚ) (fexp : ℚ → ℚ) (d : ℕ) : ℚ :=
  ∑ ρ ∈ Finset.range k, localSum k m L fexp ρ d

/-- Entry of `self.prob` after `self.prob /= psum`, before the floor line. -/
def divP (k m : ℕ) (L : ℕ → ℕ → ℚ) (fexp : ℚ → ℚ) (r d : ℕ) : ℚ :=
  expP k m L fexp r d / gSumD k m L fexp d

/-- Entry of `self.prob` after the complete `_normalize_prob` of
`src/emc.py` (zeroing floor). -/
def normPemc (k m : ℕ) (L : ℕ → ℕ → ℚ) (fexp : ℚ → ℚ) (r d : ℕ) : ℚ :=
  emcFloor (divP k m L fexp r d)

/-- Entry of `self.prob` after the complete `_normalize_prob` of
`src/cupadman/emc.py` (clipping floor). -/
def normPcup (k m : ℕ) (L : ℕ → ℕ → ℚ) (fexp : ℚ → ℚ) (r d : ℕ) : ℚ :=
  cupFloor (divP k m L fexp r d)

/-! ## CUDA kernels of `src/kernels.py`

The data kernels are launched with a 1-D grid of
`int(np.ceil(ndata/32.)) * 32` threads (`bsize_data` blocks of 32);
thread `d` returns immediately when `d >= ndata`.  A sparse frame `d`
owns `ones d` singleton photons at pooled positions
`p_o (o_acc d), …, p_o (o_acc d + ones d - 1)` and `multi d` multi-photon
pixels at `p_m (m_acc d + j)` with counts `c_m (m_acc d + j)`. -/

/-- Total thread count of a data-kernel launch:
`int(np.ceil(ndata/32.)) * 32`. -/
def gridT (ndata : ℕ) : ℕ := 32 * ((ndata + 31) / 32)

/-- Value stored by thread `d` of `calc_prob_all`
(`src/kernels.py` lines 104-108): `init*scales[d]` plus the log-view at
each singleton photon plus count-weighted log-view at each multi pixel. -/
def probVal (lview : ℕ → ℚ) (ones multi o_acc m_acc p_o p_m c_m : ℕ → ℕ)
    (init : ℚ) (scales : ℕ → ℚ) (d : ℕ) : ℚ :=
  init * scales d
    + ∑ j ∈ Finset.range (ones d), lview (p_o (o_acc d + j))
    + ∑ j ∈ Finset.range (multi d), lview (p_m (m_acc d + j)) * (c_m (m_acc d + j) : ℚ)

/-- One thread of `calc_prob_all`: guard `d >= ndata` returns, otherwise
the thread overwrites `prob_r[d]` (reading no other cell of the buffer). -/
def calcThread (ndata : ℕ) (lview : ℕ → ℚ) (ones multi o_acc m_acc p_o p_m c_m : ℕ → ℕ)
    (init : ℚ) (scales : ℕ → ℚ) (buf : ℕ → ℚ) (d : ℕ) : ℕ → ℚ :=
  if ndata ≤ d then buf
  else Function.update buf d (probVal lview ones multi o_acc m_acc p_o p_m c_m init scales d)

/-- A full `calc_prob_all` launch with `T` threads over buffer `buf`. -/
def gridCalc (T ndata : ℕ) (lview : ℕ → ℚ) (ones multi o_acc m_acc p_o p_m c_m : ℕ → ℕ)
    (init : ℚ) (scales : ℕ → ℚ) (buf : ℕ → ℚ) : ℕ → ℚ :=
  (List.range T).foldl (calcThread ndata lview ones multi o_acc m_acc p_o p_m c_m init scales) buf

/-- `atomicAdd(&v[p], x)`. -/
def addAt (v : ℕ → ℚ) (p : ℕ) (x : ℚ) : ℕ → ℚ := Function.update v p (v p + x)

/-- One thread of `merge_all` (`src/kernels.py` lines 124-132): guard
`d >= ndata` returns, otherwise the thread scatter-adds `prob_r[d]` at every
singleton position and `prob_r[d]*c_m[t]` at every multi position. -/
def mergeThread (ndata : ℕ) (ones multi o_acc m_acc p_o p_m c_m : ℕ → ℕ)
    (probR : ℕ → ℚ) (v : ℕ → ℚ) (d : ℕ) : ℕ → ℚ :=
  if ndata ≤ d then v
  else
    (List.range' (m_acc d) (multi d)).foldl
      (fun w t => addAt w (p_m t) (probR d * (c_m t : ℚ)))
      ((List.range' (o_acc d) (ones d)).foldl (fun w t => addAt w (p_o t) (probR d)) v)

/-- A full `merge_all` launch with `T` threads over view buffer `v`. -/
def gridMerge (T ndata : ℕ) (ones multi o_acc m_acc p_o p_m c_m : ℕ → ℕ)
    (probR : ℕ → ℚ) (v : ℕ → ℚ) : ℕ → ℚ :=
  (List.range T).foldl (mergeThread ndata ones multi o_acc m_acc p_o p_m c_m probR) v

/-! ## `slice_merge` (`src/kernels.py` lines 48-83)

Thread `(x, y)` (the launch grid covers at least `size × size`, excess
threads return at the `x > size-1 || y > size-1` guard) rotates the pixel
centre by the orientation angle, floors to the cell `(ix, iy)`, and — when
the `ix,iy ∈ [0, size-2]` guard passes — atomically adds bilinear shares of
`view[t]` into `model` and the matching shares of `1` into `mweights` at
the four stencil corners.  Since every atomic add into a target cell `u`
pairs `view[x*size+y] * w` (model) with `w` (weights), the accumulated
contributions of pixel `(x, y)` to cell `u` are `view[x*size+y] *
smPixW … u` and `smPixW … u` respectively.  The angle enters only through
`cos angle = ac` and `sin angle = as`, passed here as rationals. -/

/-- `int cen = size / 2` of the slice kernels, as a rational. -/
def cenQ (size : ℕ) : ℚ := ((size / 2 : ℕ) : ℚ)

/-- `tx`, the rotated row coordinate of pixel `(x, y)`. -/
def rotX (ac as : ℚ) (size x y : ℕ) : ℚ :=
  ((x : ℚ) - cenQ size) * ac - ((y : ℚ) - cenQ size) * as + cenQ size

/-- `ty`, the rotated column coordinate of pixel `(x, y)`. -/
def rotY (ac as : ℚ) (size x y : ℕ) : ℚ :=
  ((x : ℚ) - cenQ size) * as + ((y : ℚ) - cenQ size) * ac + cenQ size

/-- `fx = tx - ix` where `ix = __double2int_rd(tx) = ⌊tx⌋`. -/
def fracPart (t : ℚ) : ℚ := t - (⌊t⌋ : ℚ)

/-- The guard `ix < 0 || ix > size - 2 || iy < 0 || iy > size - 2` under
which thread `(x, y)` of `slice_merge` (or `slice_gen`) returns without
touching the model-shaped arrays. -/
def smSkip (ac as : ℚ) (size x y : ℕ) : Prop :=
  ⌊rotX ac as size x y⌋ < 0 ∨ (size : ℤ) - 2 < ⌊rotX ac as size x y⌋
    ∨ ⌊rotY ac as size x y⌋ < 0 ∨ (size : ℤ) - 2 < ⌊rotY ac as size x y⌋

instance (ac as : ℚ) (size x y : ℕ) : Decidable (smSkip ac as size x y) := by
  unfold smSkip; infer_instance

/-- Total interpolation weight that `slice_merge`'s thread `(x, y)` adds
into cell `u` of `mweights` (the `w` factors of its four `atomicAdd`s). -/
def smPixW (ac as : ℚ) (size x y u : ℕ) : ℚ :=
  if smSkip ac as size x y then 0
  else
    (if u = (⌊rotX ac as size x y⌋).toNat * size + (⌊rotY ac as size x y⌋).toNat then
      (1 - fracPart (rotX ac as size x y)) * (1 - fracPart (rotY ac as size x y)) else 0)
    + (if u = ((⌊rotX ac as size x y⌋).toNat + 1) * size + (⌊rotY ac as size x y⌋).toNat then
      fracPart (rotX ac as size x y) * (1 - fracPart (rotY ac as size x y)) else 0)
    + (if u = (⌊rotX ac as size x y⌋).toNat * size + ((⌊rotY ac as size x y⌋).toNat + 1) then
      (1 - fracPart (rotX ac as size x y)) * fracPart (rotY ac as size x y) else 0)
    + (if u = ((⌊rotX ac as size x y⌋).toNat + 1) * size + ((⌊rotY ac as size x y⌋).toNat + 1) then
      fracPart (rotX ac as size x y) * fracPart (rotY ac as size x y) else 0)

/-- Total weight accumulated into `mweights[u]` by a `slice_merge` launch
(the commuting atomic adds of all threads, summed). -/
def sliceMergeW (ac as : ℚ) (size : ℕ) (u : ℕ) : ℚ :=
  ∑ x ∈ Finset.range size, ∑ y ∈ Finset.range size, smPixW ac as size x y u

/-- Total intensity accumulated into `model[u]` by a `slice_merge` launch
on view `view`: pixel `(x, y)` adds `view[x*size+y] * w` exactly where it
adds `w` into the weights. -/
def sliceMergeM (view : ℕ → ℚ) (ac as : ℚ) (size : ℕ) (u : ℕ) : ℚ :=
  ∑ x ∈ Finset.range size, ∑ y ∈ Finset.range size,
    view (x * size + y) * smPixW ac as size x y u

theorem fracPart_nonneg (t : ℚ) : 0 ≤ fracPart t :=
  sub_nonneg.mpr (Int.floor_le t)

theorem fracPart_lt_one (t : ℚ) : fracPart t < 1 :=
  sub_lt_iff_lt_add.mpr (by simp [add_comm, Int.lt_floor_add_one t])

theorem smPixW_nonneg (ac as : ℚ) (size x y u : ℕ) : 0 ≤ smPixW ac as size x y u := by
  have hx0 := fracPart_nonneg (rotX ac as size x y)
  have hx1 := (fracPart_lt_one (rotX ac as size x y)).le
  have hy0 := fracPart_nonneg (rotY ac as size x y)
  have hy1 := (fracPart_lt_one (rotY ac as size x y)).le
  unfold smPixW
  split
  · exact le_refl 0
  · have h1 : (0:ℚ) ≤ (1 - fracPart (rotX ac as size x y)) := by linarith
    have h2 : (0:ℚ) ≤ (1 - fracPart (rotY ac as size x y)) := by linarith
    have m1 := mul_nonneg h1 h2
    have m2 := mul_nonneg hx0 h2
    have m3 := mul_nonneg h1 hy0
    have m4 := mul_nonneg hx0 hy0
    split_ifs <;> linarith

/-- If a `slice_merge` launch accumulates zero total weight into cell `u`,
it also accumulates zero intensity there: every atomic model add is the
matching weight add times a view value. -/
theorem sliceMergeM_eq_zero_of_W_eq_zero (view : ℕ → ℚ) (ac as : ℚ) (size u : ℕ)
    (h : sliceMergeW ac as size u = 0) : sliceMergeM view ac as size u = 0 := by
  have hpt : ∀ x ∈ Finset.range size, ∀ y ∈ Finset.range size,
      smPixW ac as size x y u = 0 := by
    intro x hx y hy
    have hrow : ∀ x ∈ Finset.range size,
        (0:ℚ) ≤ ∑ y ∈ Finset.range size, smPixW ac as size x y u := by
      intro a _
      exact Finset.sum_nonneg fun b _ => smPixW_nonneg ac as size a b u
    have hx0 := (Finset.sum_eq_zero_iff_of_nonneg hrow).mp h x hx
    exact (Finset.sum_eq_zero_iff_of_nonneg
      (fun b _ => smPixW_nonneg ac as size x b u)).mp hx0 y hy
  refine Finset.sum_eq_zero fun x hx => Finset.sum_eq_zero fun y hy => ?_
  rw [hpt x hx y hy, mul_zero]

/-! ### Grid-rounding lemmas -/

theorem ndata_le_gridT (ndata : ℕ) : ndata ≤ gridT ndata := by
  unfold gridT; omega

/-- Folding a step function over the rounded-up thread range equals folding
over the exact range when every thread past `n` is a no-op. -/
theorem foldl_range_of_id_from {α : Type} (g : α → ℕ → α) (n T : ℕ) (hT : n ≤ T)
    (hid : ∀ a : α, ∀ d : ℕ, n ≤ d → g a d = a) (a : α) :
    (List.range T).foldl g a = (List.range n).foldl g a := by
  obtain ⟨s, rfl⟩ : ∃ s, T = n + s := ⟨T - n, by omega⟩
  induction s with
  | zero => rfl
  | succ s ih =>
    rw [show n + (s + 1) = (n + s) + 1 from rfl, List.range_succ, List.foldl_append,
      ih (by omega)]
    exact hid _ _ (by omega)

theorem gridMerge_eq_exact (T ndata : ℕ) (hT : ndata ≤ T)
    (ones multi o_acc m_acc p_o p_m c_m : ℕ → ℕ) (probR v : ℕ → ℚ) :
    gridMerge T ndata ones multi o_acc m_acc p_o p_m c_m probR v
      = gridMerge ndata ndata ones multi o_acc m_acc p_o p_m c_m probR v := by
  unfold gridMerge
  refine foldl_range_of_id_from _ ndata T hT (fun a d hd => ?_) v
  unfold mergeThread
  rw [if_pos hd]

theorem gridCalc_eq (T ndata : ℕ) (lview : ℕ → ℚ)
    (ones multi o_acc m_acc p_o p_m c_m : ℕ → ℕ) (init : ℚ) (scales : ℕ → ℚ)
    (buf : ℕ → ℚ) (j : ℕ) :
    gridCalc T ndata lview ones multi o_acc m_acc p_o p_m c_m init scales buf j
      = if j < T ∧ j < ndata then
          probVal lview ones multi o_acc m_acc p_o p_m c_m init scales j
        else buf j := by
  induction T generalizing buf with
  | zero => simp [gridCalc]
  | succ T ih =>
    unfold gridCalc at ih ⊢
    rw [List.range_succ, List.foldl_append]
    simp only [List.foldl_cons, List.foldl_nil]
    have hhead : ∀ B : ℕ → ℚ,
        calcThread ndata lview ones multi o_acc m_acc p_o p_m c_m init scales B T j
          = if ndata ≤ T then B j
            else Function.update B T
              (probVal lview ones multi o_acc m_acc p_o p_m c_m init scales T) j := by
      intro B
      unfold calcThread
      split <;> rfl
    rw [hhead]
    by_cases hT : ndata ≤ T
    · rw [if_pos hT, ih]
      by_cases hj : j < T ∧ j < ndata
      · rw [if_pos hj, if_pos ⟨by omega, hj.2⟩]
      · rw [if_neg hj, if_neg (by omega)]
    · rw [if_neg hT]
      by_cases hjT : j = T
      · subst hjT
        rw [Function.update_same, if_pos ⟨by omega, by omega⟩]
      · rw [Function.update_noteq hjT, ih]
        by_cases hj : j < T ∧ j < ndata
        · rw [if_pos hj, if_pos ⟨by omega, hj.2⟩]
        · rw [if_neg hj, if_neg (by omega)]

/-! ## Work partitioner (`src/cupadman/emc.py` lines 101-104)

```
mem_frac = num_rot_p*self.dset.num_data*8/ (self.mem_size - self.dset.mem)
num_blocks = int(np.ceil(mem_frac / MEM_THRESH))
block_sizes = np.array([self.dset.num_data // num_blocks] * num_blocks)
block_sizes[0:self.dset.num_data % num_blocks] += 1
```
-/

/-- `num_rot_p`, the owned-orientation count of `rank` among `k` processes
(`src/cupadman/emc.py` lines 98-100). -/
def numRotP (num_rot k rank : ℕ) : ℕ :=
  num_rot / k + if rank < num_rot % k then 1 else 0

/-- `mem_frac`: probability-matrix bytes over the device memory left after
the dataset. -/
def memFrac (nrp num_data mem_size dmem : ℕ) : ℚ :=
  (nrp * num_data * 8 : ℕ) / ((mem_size : ℚ) - (dmem : ℚ))

/-- `num_blocks = int(np.ceil(mem_frac / MEM_THRESH))` (a non-positive
ceiling collapses to `0`, as `int` would). -/
def numBlocks (nrp num_data mem_size dmem : ℕ) : ℕ :=
  (⌈memFrac nrp num_data mem_size dmem / MEM_THRESH⌉).toNat

/-- `block_sizes`: `nb` copies of `num_data // nb`, the first
`num_data % nb` of them incremented. -/
def blockSizes (num_data nb : ℕ) : List ℕ :=
  List.ofFn (n := nb) fun j => num_data / nb + if (j : ℕ) < num_data % nb then 1 else 0

/-- The `(b_start, b_start + b)` frame ranges traversed by
`run_iteration`'s block loop (`src/cupadman/emc.py` lines 115-121),
starting from `s`. -/
def rangesFrom : ℕ → List ℕ → List (ℕ × ℕ)
  | _, [] => []
  | s, b :: bs => (s, s + b) :: rangesFrom (s + b) bs

/-! ## One full EM iteration of `src/emc.py`

`EMC.run_iteration` (lines 90-102) with `k` processes:
`_calculate_prob` → `_normalize_prob` → `_update_model` →
`_normalize_model`.  The inputs fixed for the iteration are collected in
`EmcInput`.  The render kernel `slice_gen` appears only through the
log-view it writes, so it is carried as the abstract field `sliceGen`
(the spec treats the render/back-project mathematics as a pluggable
kernel contract); `cosr`/`sinr` give `cos`/`sin` of orientation `r`'s
angle `r/num_rot*2π` as exact rationals, and `fexp` is the pointwise
exponential of `_normalize_prob`. -/

structure EmcInput where
  size : ℕ
  num_rot : ℕ
  num_data : ℕ
  ones : ℕ → ℕ
  multi : ℕ → ℕ
  o_acc : ℕ → ℕ
  m_acc : ℕ → ℕ
  p_o : ℕ → ℕ
  p_m : ℕ → ℕ
  c_m : ℕ → ℕ
  scales : ℕ → ℚ
  model0 : ℕ → ℚ
  sliceGen : (ℕ → ℚ) → ℕ → ℕ → ℚ
  cosr : ℕ → ℚ
  sinr : ℕ → ℚ
  fexp : ℚ → ℚ

/-- `msum = float(-self.model.sum())` (`_calculate_prob`, line 105). -/
def msum (E : EmcInput) : ℚ := -(∑ t ∈ Finset.range (E.size * E.size), E.model0 t)

/-- The log-view rendered for orientation `r` from the iteration's model. -/
def lviewI (E : EmcInput) (r : ℕ) : ℕ → ℚ := E.sliceGen E.model0 r

/-- Row value written by `calc_prob_all` for orientation `r`, frame `d`:
by `gridCalc_eq`, the launch on lines 111-116 stores exactly
`probVal … d` at every `d < num_data`. -/
def logP (E : EmcInput) (r d : ℕ) : ℚ :=
  probVal (lviewI E r) E.ones E.multi E.o_acc E.m_acc E.p_o E.p_m E.c_m (msum E) E.scales d

/-- Rows per rank when `k ∣ num_rot` (each rank owns `num_rot / k`
orientations). -/
def mI (E : EmcInput) (k : ℕ) : ℕ := E.num_rot / k

/-- Entry `(r, d)` of the fully normalized probability matrix held by
orientation `r`'s owner after `_normalize_prob` (zeroing floor of
`src/emc.py`). -/
def normP (E : EmcInput) (k r d : ℕ) : ℚ :=
  normPemc k (mI E k) (logP E) E.fexp r d

/-- `p_norm[i] = self.prob.sum(1)[i]`, the responsibility mass of
orientation `r` (`_update_model`, line 137; `src/emc.py` has a single
block spanning all frames). -/
def pNormI (E : EmcInput) (k r : ℕ) : ℚ :=
  ∑ d ∈ Finset.range E.num_data, normP E k r d

/-- The scratch view after `view[:] = 0` and the `merge_all` launch for
orientation `r` (`_update_model`, lines 145-151). -/
def mergedView (E : EmcInput) (k r : ℕ) : ℕ → ℚ :=
  gridMerge (gridT E.num_data) E.num_data E.ones E.multi E.o_acc E.m_acc E.p_o E.p_m E.c_m
    (fun d => normP E k r d) (fun _ => 0)

/-- `view/p_norm[i]`, the expected-intensity view passed to `slice_merge`
(line 153). -/
def scaledView (E : EmcInput) (k r : ℕ) (t : ℕ) : ℚ :=
  mergedView E k r t / pNormI E k r

/-- One turn of `_update_model`'s orientation loop (lines 142-154) acting
on the `(dmodel, dmweights)` accumulator pair: skip when `p_norm[i] == 0`,
otherwise add the `slice_merge` contributions of orientation `r`. -/
def updStep (E : EmcInput) (k : ℕ) (acc : (ℕ → ℚ) × (ℕ → ℚ)) (r : ℕ) :
    (ℕ → ℚ) × (ℕ → ℚ) :=
  if pNormI E k r = 0 then acc
  else
    (fun u => acc.1 u + sliceMergeM (scaledView E k r) (E.cosr r) (E.sinr r) E.size u,
     fun u => acc.2 u + sliceMergeW (E.cosr r) (E.sinr r) E.size u)

/-- `dmodel`/`dmweights` of one rank after `_update_model`: the loop over
its owned orientations starting from the zeroed accumulators
(lines 140-141). -/
def rankAccum (E : EmcInput) (k rank : ℕ) : (ℕ → ℚ) × (ℕ → ℚ) :=
  (ownedList rank k E.num_rot).foldl (updStep E k) (fun _ => 0, fun _ => 0)

/-- `self.model` on root after the `Reduce(SUM)` of `_normalize_model`
(line 160). -/
def redModel (E : EmcInput) (k : ℕ) (u : ℕ) : ℚ :=
  ∑ rank ∈ Finset.range k, (rankAccum E k rank).1 u

/-- `self.mweights` on root after the `Reduce(SUM)` (line 161). -/
def redW (E : EmcInput) (k : ℕ) (u : ℕ) : ℚ :=
  ∑ rank ∈ Finset.range k, (rankAccum E k rank).2 u

/-- The broadcast model ending the iteration:
`self.model[self.mweights > 0] /= self.mweights[self.mweights > 0]`
(line 162) divides exactly the cells with positive reduced weight. -/
def finalModel (E : EmcInput) (k : ℕ) (u : ℕ) : ℚ :=
  if 0 < redW E k u then redModel E k u / redW E k u else redModel E k u

/-- Orientation `r`'s contribution to its owner's `dmodel` (zero when the
zero-responsibility skip fires). -/
def contribM (E : EmcInput) (k r : ℕ) (u : ℕ) : ℚ :=
  if pNormI E k r = 0 then 0
  else sliceMergeM (scaledView E k r) (E.cosr r) (E.sinr r) E.size u

/-- Orientation `r`'s contribution to its owner's `dmweights`. -/
def contribW (E : EmcInput) (k r : ℕ) (u : ℕ) : ℚ :=
  if pNormI E k r = 0 then 0
  else sliceMergeW (E.cosr r) (E.sinr r) E.size u

/-- The `_update_model` loop accumulates pointwise sums of the
per-orientation contributions. -/
theorem updRun_eq (E : EmcInput) (k : ℕ) (l : List ℕ) (acc : (ℕ → ℚ) × (ℕ → ℚ)) (u : ℕ) :
    (l.foldl (updStep E k) acc).1 u = acc.1 u + (l.map (fun r => contribM E k r u)).sum
      ∧ (l.foldl (updStep E k) acc).2 u = acc.2 u + (l.map (fun r => contribW E k r u)).sum := by
  induction l generalizing acc with
  | nil => simp
  | cons r l ih =>
    simp only [List.foldl_cons, List.map_cons, List.sum_cons]
    rcases ih (updStep E k acc r) with ⟨h1, h2⟩
    rw [h1, h2]
    unfold updStep contribM contribW
    by_cases h : pNormI E k r = 0
    · rw [if_pos h, if_pos h, if_pos h]
      constructor <;> ring
    · rw [if_neg h, if_neg h, if_neg h]
      constructor <;> dsimp only <;> ring

/-! ## Striping reindexing lemmas

With `k ∣ num_rot` every rank owns exactly `num_rot / k` orientations and
`(rank, i) ↦ rank + i·k` is a bijection onto `{0, …, num_rot - 1}`; the
two-level MPI reductions therefore compute the corresponding global
reductions. -/

theorem ownedIdx_lt (k m ρ i : ℕ) (hρ : ρ < k) (hi : i < m) : ownedIdx k ρ i < k * m := by
  unfold ownedIdx
  have h1 : ρ + i * k < k + i * k := by omega
  have h2 : (i + 1) * k ≤ m * k := Nat.mul_le_mul_right k (by omega)
  calc ρ + i * k < k + i * k := h1
    _ = (i + 1) * k := by ring
    _ ≤ m * k := h2
    _ = k * m := by ring

theorem sum_stripes (k n : ℕ) (hk : k ∣ n) (h0 : 0 < k) (F : ℕ → ℚ) :
    ∑ ρ ∈ Finset.range k, ∑ i ∈ Finset.range (n / k), F (ownedIdx k ρ i)
      = ∑ r ∈ Finset.range n, F r := by
  obtain ⟨m, rfl⟩ := hk
  rw [Nat.mul_div_cancel_left m h0, ← Finset.sum_product']
  refine Finset.sum_nbij' (fun p => ownedIdx k p.1 p.2) (fun r => (r % k, r / k))
    ?_ ?_ ?_ ?_ ?_
  · intro p hp
    rw [Finset.mem_product, Finset.mem_range, Finset.mem_range] at hp
    exact Finset.mem_range.mpr (ownedIdx_lt k m p.1 p.2 hp.1 hp.2)
  · intro r hr
    rw [Finset.mem_range] at hr
    rw [Finset.mem_product, Finset.mem_range, Finset.mem_range]
    exact ⟨Nat.mod_lt r h0,
      (Nat.div_lt_iff_lt_mul h0).mpr (lt_of_lt_of_eq hr (Nat.mul_comm k m))⟩
  · intro p hp
    rw [Finset.mem_product, Finset.mem_range, Finset.mem_range] at hp
    unfold ownedIdx
    have h1 : (p.1 + p.2 * k) % k = p.1 := by
      rw [Nat.add_mul_mod_self_right, Nat.mod_eq_of_lt hp.1]
    have h2 : (p.1 + p.2 * k) / k = p.2 := by
      rw [Nat.add_mul_div_right _ _ h0, Nat.div_eq_of_lt hp.1, Nat.zero_add]
    exact Prod.ext h1 h2
  · intro r _
    unfold ownedIdx
    exact Nat.mod_add_div' r k
  · intro p _
    rfl

theorem gMaxD_eq_global (k n : ℕ) (hk : k ∣ n) (h0 : 0 < k) (hn : 0 < n)
    (L : ℕ → ℕ → ℚ) (d : ℕ) :
    gMaxD k (n / k) L d = rowsMax n (fun r => L r d) := by
  have hm : 0 < n / k := Nat.div_pos (Nat.le_of_dvd hn hk) h0
  have hkm : k * (n / k) = n := Nat.mul_div_cancel' hk
  apply le_antisymm
  · apply rowsMax_le _ _ k h0
    intro ρ hρ
    apply rowsMax_le _ _ (n / k) hm
    intro i hi
    apply le_rowsMax
    have := ownedIdx_lt k (n / k) ρ i hρ hi
    omega
  · apply rowsMax_le _ _ n hn
    intro r hr
    have hco : L r d = L (ownedIdx k (r % k) (r / k)) d := by
      unfold ownedIdx
      rw [Nat.mod_add_div']
    calc L r d = L (ownedIdx k (r % k) (r / k)) d := hco
      _ ≤ localMax k (n / k) L (r % k) d := by
          apply le_rowsMax
          refine (Nat.div_lt_iff_lt_mul h0).mpr ?_
          have hkm2 : (n / k) * k = k * (n / k) := Nat.mul_comm _ _
          omega
      _ ≤ gMaxD k (n / k) L d := le_rowsMax _ _ _ (Nat.mod_lt r h0)

theorem gSumD_eq_global (k n : ℕ) (hk : k ∣ n) (h0 : 0 < k)
    (L : ℕ → ℕ → ℚ) (fexp : ℚ → ℚ) (d : ℕ) :
    gSumD k (n / k) L fexp d = ∑ r ∈ Finset.range n, fexp (L r d - gMaxD k (n / k) L d) := by
  unfold gSumD localSum expP
  exact sum_stripes k n hk h0 (fun r => fexp (L r d - gMaxD k (n / k) L d))

theorem list_map_range_sum (f : ℕ → ℚ) (n : ℕ) :
    ((List.range n).map f).sum = ∑ i ∈ Finset.range n, f i := by
  induction n with
  | zero => simp
  | succ n ih =>
    rw [List.range_succ, List.map_append, List.sum_append, Finset.sum_range_succ, ih]
    simp

theorem ownedList_length (rank k n : ℕ) (hk : k ∣ n) (h0 : 0 < k) (hr : rank < k)
    (hn : 0 < n) : (n - rank + k - 1) / k = n / k := by
  obtain ⟨m, rfl⟩ := hk
  have hm : 0 < m := by
    rcases Nat.eq_zero_or_pos m with h | h
    · subst h; omega
    · exact h
  have hrk : rank ≤ k * m :=
    le_of_lt (lt_of_lt_of_le hr (Nat.le_mul_of_pos_right k hm))
  have heq : k * m - rank + k - 1 = k * m + (k - 1 - rank) := by omega
  rw [heq, Nat.mul_add_div h0, Nat.mul_div_cancel_left m h0,
    Nat.div_eq_of_lt (by omega), Nat.add_zero]

/-! ## Process-count invariance chain -/

theorem normP_eq_single (E : EmcInput) (k : ℕ) (hk : k ∣ E.num_rot) (h0 : 0 < k)
    (hn : 0 < E.num_rot) (r d : ℕ) : normP E k r d = normP E 1 r d := by
  unfold normP normPemc divP expP mI
  rw [gSumD_eq_global k E.num_rot hk h0 (logP E) E.fexp d,
    gSumD_eq_global 1 E.num_rot (one_dvd _) one_pos (logP E) E.fexp d,
    gMaxD_eq_global k E.num_rot hk h0 hn (logP E) d,
    gMaxD_eq_global 1 E.num_rot (one_dvd _) one_pos hn (logP E) d]

theorem pNormI_eq_single (E : EmcInput) (k : ℕ) (hk : k ∣ E.num_rot) (h0 : 0 < k)
    (hn : 0 < E.num_rot) (r : ℕ) : pNormI E k r = pNormI E 1 r := by
  unfold pNormI
  exact Finset.sum_congr rfl fun d _ => normP_eq_single E k hk h0 hn r d

theorem mergedView_eq_single (E : EmcInput) (k : ℕ) (hk : k ∣ E.num_rot) (h0 : 0 < k)
    (hn : 0 < E.num_rot) (r : ℕ) : mergedView E k r = mergedView E 1 r := by
  unfold mergedView
  have hrow : (fun d => normP E k r d) = (fun d => normP E 1 r d) :=
    funext fun d => normP_eq_single E k hk h0 hn r d
  rw [hrow]

theorem contrib_eq_single (E : EmcInput) (k : ℕ) (hk : k ∣ E.num_rot) (h0 : 0 < k)
    (hn : 0 < E.num_rot) (r u : ℕ) :
    contribM E k r u = contribM E 1 r u ∧ contribW E k r u = contribW E 1 r u := by
  have hs : scaledView E k r = scaledView E 1 r := by
    unfold scaledView
    rw [mergedView_eq_single E k hk h0 hn r, pNormI_eq_single E k hk h0 hn r]
  unfold contribM contribW
  rw [pNormI_eq_single E k hk h0 hn r, hs]
  exact ⟨rfl, rfl⟩

theorem rankAccum_sum (E : EmcInput) (k ρ : ℕ) (hk : k ∣ E.num_rot) (h0 : 0 < k)
    (hρ : ρ < k) (hn : 0 < E.num_rot) (u : ℕ) :
    (rankAccum E k ρ).1 u
        = ∑ i ∈ Finset.range (E.num_rot / k), contribM E k (ownedIdx k ρ i) u
      ∧ (rankAccum E k ρ).2 u
        = ∑ i ∈ Finset.range (E.num_rot / k), contribW E k (ownedIdx k ρ i) u := by
  unfold rankAccum ownedList
  rcases updRun_eq E k
      ((List.range ((E.num_rot - ρ + k - 1) / k)).map (fun i => ownedIdx k ρ i))
      (fun _ => 0, fun _ => 0) u with ⟨h1, h2⟩
  rw [h1, h2, ownedList_length ρ k E.num_rot hk h0 hρ hn]
  simp only [List.map_map, Function.comp_def]
  rw [list_map_range_sum (fun i => contribM E k (ownedIdx k ρ i) u),
    list_map_range_sum (fun i => contribW E k (ownedIdx k ρ i) u)]
  constructor <;> exact zero_add _

theorem redModel_eq_sum (E : EmcInput) (k : ℕ) (hk : k ∣ E.num_rot) (h0 : 0 < k)
    (hn : 0 < E.num_rot) (u : ℕ) :
    redModel E k u = ∑ r ∈ Finset.range E.num_rot, contribM E k r u := by
  unfold redModel
  rw [Finset.sum_congr rfl
    (fun ρ hρ => (rankAccum_sum E k ρ hk h0 (Finset.mem_range.mp hρ) hn u).1)]
  exact sum_stripes k E.num_rot hk h0 (fun r => contribM E k r u)

theorem redW_eq_sum (E : EmcInput) (k : ℕ) (hk : k ∣ E.num_rot) (h0 : 0 < k)
    (hn : 0 < E.num_rot) (u : ℕ) :
    redW E k u = ∑ r ∈ Finset.range E.num_rot, contribW E k r u := by
  unfold redW
  rw [Finset.sum_congr rfl
    (fun ρ hρ => (rankAccum_sum E k ρ hk h0 (Finset.mem_range.mp hρ) hn u).2)]
  exact sum_stripes k E.num_rot hk h0 (fun r => contribW E k r u)

theorem finalModel_eq_single (E : EmcInput) (k : ℕ) (hk : k ∣ E.num_rot) (h0 : 0 < k)
    (hn : 0 < E.num_rot) (u : ℕ) : finalModel E k u = finalModel E 1 u := by
  have hM : redModel E k u = redModel E 1 u := by
    rw [redModel_eq_sum E k hk h0 hn u, redModel_eq_sum E 1 (one_dvd _) one_pos hn u]
    exact Finset.sum_congr rfl fun r _ => (contrib_eq_single E k hk h0 hn r u).1
  have hW : redW E k u = redW E 1 u := by
    rw [redW_eq_sum E k hk h0 hn u, redW_eq_sum E 1 (one_dvd _) one_pos hn u]
    exact Finset.sum_congr rfl fun r _ => (contrib_eq_single E k hk h0 hn r u).2
  unfold finalModel
  rw [hM, hW]

/-! ## Zero-weight cells -/

theorem sliceMergeW_nonneg (ac as : ℚ) (size u : ℕ) : 0 ≤ sliceMergeW ac as size u :=
  Finset.sum_nonneg fun x _ => Finset.sum_nonneg fun y _ => smPixW_nonneg ac as size x y u

theorem contribW_nonneg (E : EmcInput) (k r u : ℕ) : 0 ≤ contribW E k r u := by
  unfold contribW
  split
  · exact le_refl 0
  · exact sliceMergeW_nonneg _ _ _ _

theorem contribM_eq_zero_of_W (E : EmcInput) (k r u : ℕ) (h : contribW E k r u = 0) :
    contribM E k r u = 0 := by
  unfold contribW at h
  unfold contribM
  by_cases hp : pNormI E k r = 0
  · rw [if_pos hp]
  · rw [if_neg hp]
    rw [if_neg hp] at h
    exact sliceMergeM_eq_zero_of_W_eq_zero _ _ _ _ _ h

/-- A model cell whose reduced interpolation weight is zero ends the
iteration holding `0`: the accumulators were zeroed at the start of
`_update_model` and every atomic model add at the cell carried a zero
weight factor. -/
theorem finalModel_eq_zero_of_redW_eq_zero (E : EmcInput) (k : ℕ) (hk : k ∣ E.num_rot)
    (h0 : 0 < k) (hn : 0 < E.num_rot) (u : ℕ) (hw : redW E k u = 0) :
    finalModel E k u = 0 := by
  have hsum : ∑ r ∈ Finset.range E.num_rot, contribW E k r u = 0 := by
    rw [← redW_eq_sum E k hk h0 hn u]
    exact hw
  have hall : ∀ r ∈ Finset.range E.num_rot, contribW E k r u = 0 :=
    (Finset.sum_eq_zero_iff_of_nonneg fun r _ => contribW_nonneg E k r u).mp hsum
  have hM : redModel E k u = 0 := by
    rw [redModel_eq_sum E k hk h0 hn u]
    exact Finset.sum_eq_zero fun r hr => contribM_eq_zero_of_W E k r u (hall r hr)
  unfold finalModel
  rw [hw, hM]
  simp

/-! ## Column independence of the normalization -/

theorem rowsMax_congr (f g : ℕ → ℚ) : ∀ m : ℕ, (∀ i : ℕ, i < m → f i = g i) →
    rowsMax m f = rowsMax m g := by
  intro m
  induction m with
  | zero => intro _; rfl
  | succ m ih =>
    intro h
    match m with
    | 0 => exact h 0 (by omega)
    | m + 1 =>
      show max (rowsMax (m + 1) f) (f (m + 1)) = max (rowsMax (m + 1) g) (g (m + 1))
      rw [ih fun i hi => h i (by omega), h (m + 1) (by omega)]

/-- `_normalize_prob` is columnwise: the normalized entries of frame `d`
depend on the log-probability matrix only through its column `d`. -/
theorem normPemc_congr_col (k m : ℕ) (L Lt : ℕ → ℕ → ℚ) (fexp : ℚ → ℚ) (r d : ℕ)
    (h : ∀ s : ℕ, L s d = Lt s d) : normPemc k m L fexp r d = normPemc k m Lt fexp r d := by
  have hmax : gMaxD k m L d = gMaxD k m Lt d := by
    unfold gMaxD localMax
    exact rowsMax_congr _ _ k fun ρ _ => rowsMax_congr _ _ m fun i _ => h _
  have hsum : gSumD k m L fexp d = gSumD k m Lt fexp d := by
    unfold gSumD localSum expP
    refine Finset.sum_congr rfl fun ρ _ => Finset.sum_congr rfl fun i _ => ?_
    rw [h _, hmax]
  unfold normPemc divP expP
  rw [h r, hmax, hsum]

/-- `merge_all` reads only the first `ndata` probability entries. -/
theorem gridMerge_probR_congr (T ndata : ℕ) (ones multi o_acc m_acc p_o p_m c_m : ℕ → ℕ)
    (probR probRt : ℕ → ℚ) (h : ∀ d : ℕ, d < ndata → probR d = probRt d) (v : ℕ → ℚ) :
    gridMerge T ndata ones multi o_acc m_acc p_o p_m c_m probR v
      = gridMerge T ndata ones multi o_acc m_acc p_o p_m c_m probRt v := by
  unfold gridMerge
  have hstep : ∀ (w : ℕ → ℚ) (d : ℕ),
      mergeThread ndata ones multi o_acc m_acc p_o p_m c_m probR w d
        = mergeThread ndata ones multi o_acc m_acc p_o p_m c_m probRt w d := by
    intro w d
    unfold mergeThread
    by_cases hd : ndata ≤ d
    · rw [if_pos hd, if_pos hd]
    · rw [if_neg hd, if_neg hd, h d (by omega)]
  induction (List.range T) generalizing v with
  | nil => rfl
  | cons d l ih =>
    simp only [List.foldl_cons]
    rw [hstep v d]
    exact ih _

/-! ## Blocked M-step of `src/cupadman/emc.py` (`_update_model`, lines 165-192)

The probability buffer is allocated once per iteration with width
`block_sizes.max()`; a block of `b ≤ W` frames fills only columns
`0, …, b-1`, while `p_norm = self.prob.sum(1)` (line 166) sums the full
allocated width `W` of each row.  The dataset functions received here are
the block's slices (`ones[s:e]` etc., zero-based within the block), and
`bg` is `self.dset.bg`. -/

/-- `p_norm[i]`: the full-width row sum of the probability buffer. -/
def pNormFull (P : ℕ → ℕ → ℚ) (W r : ℕ) : ℚ := ∑ d ∈ Finset.range W, P r d

/-- Contribution of orientation `r` to `dmodel` in the cupadman M-step for
a block of `b` frames inside a width-`W` buffer. -/
def cupContribM (P : ℕ → ℕ → ℚ) (W b : ℕ) (ones multi o_acc m_acc p_o p_m c_m : ℕ → ℕ)
    (bg : ℕ → ℚ) (ac as : ℚ) (size r u : ℕ) : ℚ :=
  if pNormFull P W r = 0 then 0
  else
    sliceMergeM
      (fun t =>
        gridMerge (gridT b) b ones multi o_acc m_acc p_o p_m c_m (P r) (fun _ => 0) t
          / pNormFull P W r - bg t)
      ac as size u

/-- Contribution of orientation `r` to `dmweights` in the cupadman M-step. -/
def cupContribW (P : ℕ → ℕ → ℚ) (W : ℕ) (ac as : ℚ) (size r u : ℕ) : ℚ :=
  if pNormFull P W r = 0 then 0 else sliceMergeW ac as size u

/-! ## Block schedule facts -/

theorem rangesFrom_flatten (l : List ℕ) : ∀ s : ℕ,
    ((rangesFrom s l).map fun p => List.range' p.1 (p.2 - p.1)).flatten
      = List.range' s l.sum := by
  induction l with
  | nil =>
    intro s
    simp [rangesFrom]
  | cons b bs ih =>
    intro s
    simp only [rangesFrom, List.map_cons, List.flatten_cons, List.sum_cons]
    rw [show s + b - s = b from by omega, ih (s + b)]
    have h := List.range'_append s b bs.sum 1
    rw [one_mul] at h
    rw [Nat.add_comm bs.sum b] at h
    exact h

theorem blockSizes_sum (D nb : ℕ) (h0 : 0 < nb) : (blockSizes D nb).sum = D := by
  unfold blockSizes
  rw [List.sum_ofFn,
    Fin.sum_univ_eq_sum_range (fun j => D / nb + if j < D % nb then 1 else 0) nb,
    Finset.sum_add_distrib, Finset.sum_const, Finset.card_range, smul_eq_mul]
  have hfil : Finset.filter (fun j => j < D % nb) (Finset.range nb) = Finset.range (D % nb) := by
    ext x
    simp only [Finset.mem_filter, Finset.mem_range]
    have := Nat.mod_lt D h0
    omega
  have hcnt : ∑ j ∈ Finset.range nb, (if j < D % nb then 1 else 0) = D % nb := by
    rw [Finset.sum_ite, Finset.sum_const, Finset.sum_const, hfil, Finset.card_range]
    simp
  rw [hcnt]
  have := Nat.div_add_mod D nb
  omega

theorem blockSizes_getD (D nb j : ℕ) (hj : j < nb) :
    (blockSizes D nb).getD j 0 = D / nb + if j < D % nb then 1 else 0 := by
  unfold blockSizes
  rw [List.getD_eq_getElem _ _ (by rw [List.length_ofFn]; exact hj), List.getElem_ofFn]

theorem blockSizes_mem (D nb b : ℕ) (hb : b ∈ blockSizes D nb) :
    b = D / nb ∨ b = D / nb + 1 := by
  unfold blockSizes at hb
  rw [List.mem_ofFn] at hb
  rcases hb with ⟨j, hj⟩
  dsimp only at hj
  by_cases h : (j : ℕ) < D % nb
  · rw [if_pos h] at hj
    exact Or.inr hj.symm
  · rw [if_neg h] at hj
    exact Or.inl (by omega)

/-! ## Memory bound of the partitioner -/

theorem numBlocks_ge_ratio (nrp D ms dm : ℕ) (hnb : 1 ≤ numBlocks nrp D ms dm) :
    0 < (nrp * D * 8 : ℚ) ∧ 0 < (ms : ℚ) - (dm : ℚ)
      ∧ memFrac nrp D ms dm / MEM_THRESH ≤ (numBlocks nrp D ms dm : ℚ) := by
  have hth : (0:ℚ) < MEM_THRESH := by norm_num [MEM_THRESH]
  have hceil : (1 : ℤ) ≤ ⌈memFrac nrp D ms dm / MEM_THRESH⌉ := by
    unfold numBlocks at hnb
    omega
  have hpos : (0:ℚ) < memFrac nrp D ms dm / MEM_THRESH := by
    have h0 : ((0:ℤ) : ℚ) < memFrac nrp D ms dm / MEM_THRESH :=
      Int.lt_ceil.mp (by omega)
    exact_mod_cast h0
  have hfrac : (0:ℚ) < memFrac nrp D ms dm := by
    rcases div_pos_iff.mp hpos with ⟨h, _⟩ | ⟨_, h⟩
    · exact h
    · exact absurd hth (not_lt.mpr h.le)
  have hnum : (0:ℚ) < ((nrp * D * 8 : ℕ) : ℚ) ∧ (0:ℚ) < (ms : ℚ) - (dm : ℚ) := by
    unfold memFrac at hfrac
    rcases div_pos_iff.mp hfrac with ⟨h1, h2⟩ | ⟨h1, _⟩
    · exact ⟨h1, h2⟩
    · exact absurd h1 (not_lt.mpr (by positivity))
  refine ⟨by exact_mod_cast hnum.1, hnum.2, ?_⟩
  have htn : ((numBlocks nrp D ms dm : ℕ) : ℤ) = ⌈memFrac nrp D ms dm / MEM_THRESH⌉ := by
    unfold numBlocks
    omega
  calc memFrac nrp D ms dm / MEM_THRESH
      ≤ ((⌈memFrac nrp D ms dm / MEM_THRESH⌉ : ℤ) : ℚ) := Int.le_ceil _
    _ = ((numBlocks nrp D ms dm : ℕ) : ℚ) := by
        rw [← htn]
        push_cast
        rfl

/-- Amended memory bound: a block's probability sub-matrix exceeds
`MEM_THRESH` times the free memory by at most one frame row
(`nrp * 8` bytes). -/
theorem blockMem_le (nrp D ms dm : ℕ) (hnb : 1 ≤ numBlocks nrp D ms dm)
    (b : ℕ) (hb : b ∈ blockSizes D (numBlocks nrp D ms dm)) :
    (nrp : ℚ) * b * 8 ≤ MEM_THRESH * ((ms : ℚ) - (dm : ℚ)) + (nrp : ℚ) * 8 := by
  obtain ⟨hnum, hA, hratio⟩ := numBlocks_ge_ratio nrp D ms dm hnb
  have hth : (0:ℚ) < MEM_THRESH := by norm_num [MEM_THRESH]
  have hnrp : 0 < nrp := by
    rcases Nat.eq_zero_or_pos nrp with h | h
    · subst h; norm_num at hnum
    · exact h
  have hD : 0 < D := by
    rcases Nat.eq_zero_or_pos D with h | h
    · subst h; norm_num at hnum
    · exact h
  set nb : ℕ := numBlocks nrp D ms dm with hnbdef
  set A : ℚ := (ms : ℚ) - (dm : ℚ) with hAdef
  -- the ratio C = nrp*D*8 / (A * MEM_THRESH), nb ≥ C > 0
  have hC : memFrac nrp D ms dm / MEM_THRESH = (nrp * D * 8 : ℚ) / (A * MEM_THRESH) := by
    unfold memFrac
    rw [div_div]
    push_cast
    rfl
  have hCpos : (0:ℚ) < (nrp * D * 8 : ℚ) / (A * MEM_THRESH) :=
    div_pos hnum (mul_pos hA hth)
  have hCle : (nrp * D * 8 : ℚ) / (A * MEM_THRESH) ≤ (nb : ℚ) := by
    rw [← hC]
    exact hratio
  -- D / nb ≤ A * MEM_THRESH / (nrp * 8)
  have hdiv : (D : ℚ) / (nb : ℚ) ≤ A * MEM_THRESH / ((nrp : ℚ) * 8) := by
    have h1 : (D : ℚ) / (nb : ℚ)
        ≤ (D : ℚ) / ((nrp * D * 8 : ℚ) / (A * MEM_THRESH)) :=
      div_le_div_of_nonneg_left (by positivity) hCpos hCle
    have h2 : (D : ℚ) / ((nrp * D * 8 : ℚ) / (A * MEM_THRESH))
        = A * MEM_THRESH / ((nrp : ℚ) * 8) := by
      rw [div_div_eq_mul_div]
      rw [show (nrp * D * 8 : ℚ) = (D : ℚ) * ((nrp : ℚ) * 8) from by ring]
      rw [mul_div_mul_left _ _ (by positivity : ((D : ℚ) ≠ 0))]
    rw [h2] at h1
    exact h1
  -- b ≤ D / nb + 1 in ℕ, hence in ℚ
  have hbn : b ≤ D / nb + 1 := by
    rcases blockSizes_mem D nb b hb with h | h <;> omega
  have hbq : (b : ℚ) ≤ (D : ℚ) / (nb : ℚ) + 1 := by
    calc (b : ℚ) ≤ ((D / nb + 1 : ℕ) : ℚ) := by exact_mod_cast hbn
      _ = ((D / nb : ℕ) : ℚ) + 1 := by push_cast; rfl
      _ ≤ (D : ℚ) / (nb : ℚ) + 1 := by
          have := Nat.cast_div_le (α := ℚ) (m := D) (n := nb)
          linarith
  have hkey : (b : ℚ) ≤ A * MEM_THRESH / ((nrp : ℚ) * 8) + 1 := by linarith
  have h8 : (0:ℚ) < (nrp : ℚ) * 8 := by positivity
  have hmul := mul_le_mul_of_nonneg_left hkey h8.le
  rw [mul_add, mul_one, mul_div_cancel₀ _ (ne_of_gt h8)] at hmul
  calc (nrp : ℚ) * b * 8 = (nrp : ℚ) * 8 * b := by ring
    _ ≤ A * MEM_THRESH + (nrp : ℚ) * 8 := hmul
    _ = MEM_THRESH * A + (nrp : ℚ) * 8 := by ring

/-! ## Striping characterization -/

theorem mem_ownedList (rank k n r : ℕ) (h0 : 0 < k) (hr : rank < k) :
    r ∈ ownedList rank k n ↔ r < n ∧ r % k = rank := by
  unfold ownedList ownedIdx
  rw [List.mem_map]
  constructor
  · rintro ⟨i, hi, rfl⟩
    rw [List.mem_range] at hi
    constructor
    · have hle : i + 1 ≤ (n - rank + k - 1) / k := hi
      have hmul := (Nat.le_div_iff_mul_le h0).mp hle
      rw [add_one_mul] at hmul
      omega
    · rw [Nat.add_mul_mod_self_right, Nat.mod_eq_of_lt hr]
  · rintro ⟨hrn, hmod⟩
    have hdecomp : r % k + r / k * k = r := Nat.mod_add_div' r k
    refine ⟨r / k, ?_, ?_⟩
    · rw [List.mem_range]
      refine Nat.lt_of_succ_le ((Nat.le_div_iff_mul_le h0).mpr ?_)
      rw [Nat.succ_mul]
      omega
    · omega

theorem ownedList_get (rank k n i : ℕ) (hi : i < (ownedList rank k n).length) :
    (ownedList rank k n).get ⟨i, hi⟩ = i * k + rank := by
  rw [List.get_eq_getElem]
  unfold ownedList ownedIdx
  simp only [List.getElem_map, List.getElem_range]
  omega

theorem stripe_mod (i k rank : ℕ) (hr : rank < k) : (i * k + rank) % k = rank := by
  rw [Nat.add_comm, Nat.add_mul_mod_self_right, Nat.mod_eq_of_lt hr]

theorem stripe_disjoint (k rank rank2 i j : ℕ) (hr : rank < k) (hr2 : rank2 < k)
    (hne : rank ≠ rank2) : i * k + rank ≠ j * k + rank2 := by
  intro h
  have h1 := stripe_mod i k rank hr
  have h2 := stripe_mod j k rank2 hr2
  rw [h, h2] at h1
  exact hne h1.symm

/-! ## Zero-responsibility skip -/

theorem updStep_skip (E : EmcInput) (k : ℕ) (acc : (ℕ → ℚ) × (ℕ → ℚ)) (r : ℕ)
    (h : pNormI E k r = 0) : updStep E k acc r = acc := by
  unfold updStep
  rw [if_pos h]

theorem updRun_filter (E : EmcInput) (k : ℕ) :
    ∀ (l : List ℕ) (acc : (ℕ → ℚ) × (ℕ → ℚ)),
      l.foldl (updStep E k) acc
        = (l.filter fun r => if pNormI E k r = 0 then false else true).foldl
            (updStep E k) acc := by
  intro l
  induction l with
  | nil => intro acc; rfl
  | cons r l ih =>
    intro acc
    rw [List.foldl_cons, List.filter_cons]
    by_cases h : pNormI E k r = 0
    · rw [if_neg (by rw [if_pos h]; simp :
        ¬((if pNormI E k r = 0 then false else true) = true))]
      rw [updStep_skip E k acc r h]
      exact ih acc
    · rw [if_pos (by rw [if_neg h] : (if pNormI E k r = 0 then false else true) = true)]
      rw [List.foldl_cons]
      exact ih (updStep E k acc r)

/-! ## Pointwise floor bounds -/

theorem emcFloor_le (x : ℚ) (hx : 0 ≤ x) : emcFloor x ≤ x := by
  unfold emcFloor
  split
  · exact hx
  · exact le_refl x

theorem sub_le_emcFloor (x : ℚ) : x - P_MIN ≤ emcFloor x := by
  unfold emcFloor
  split
  · linarith
  · have : (0:ℚ) < P_MIN := by norm_num [P_MIN]
    linarith

theorem le_cupFloor (x : ℚ) : x ≤ cupFloor x := le_max_right _ _

theorem cupFloor_le (x : ℚ) (hx : 0 ≤ x) : cupFloor x ≤ x + P_MIN := by
  unfold cupFloor
  have : (0:ℚ) < P_MIN := by norm_num [P_MIN]
  exact max_le (by linarith) (by linarith)

/-! ## Concrete normalization instance

A two-orientation, one-frame, one-process instance of `_normalize_prob`.
`fexpEx` is an admissible exponential model: it is everywhere positive and
takes the value `1` at `0` (the only structural facts of `cp.exp` that the
normalization claims rely on); `exp(-15) ≈ 3.06e-7 < P_MIN` is represented
by the sub-threshold positive value `1/2000000`. -/

def fexpEx : ℚ → ℚ := fun x => if x = 0 then 1 else 1/2000000

def LEx : ℕ → ℕ → ℚ := fun r _ => if r = 0 then 0 else -15

theorem fexpEx_pos (x : ℚ) : 0 < fexpEx x := by
  unfold fexpEx
  split <;> norm_num

/-- C1: the claimed invariant — the per-frame sum of the fully normalized
probability matrix over all processes' orientations equals 1 *after the
final floor/clip line* — fails on both sources: `src/emc.py` zeroes the
sub-threshold entry and leaves the sum at `2000000/2000001 < 1`, while
`src/cupadman/emc.py` clips it up to `P_MIN` and leaves the sum at
`2000000/2000001 + 1/1000000 > 1`; both deviations are of order `P_MIN`,
far above double-precision tolerance. -/
theorem C1_counterexample :
    (∑ ρ ∈ Finset.range 1, ∑ i ∈ Finset.range 2,
        normPemc 1 2 LEx fexpEx (ownedIdx 1 ρ i) 0) ≠ 1
  ∧ (∑ ρ ∈ Finset.range 1, ∑ i ∈ Finset.range 2,
        normPcup 1 2 LEx fexpEx (ownedIdx 1 ρ i) 0) ≠ 1 := by
  constructor <;>
    norm_num [normPemc, normPcup, emcFloor, cupFloor, max_def, divP, expP, gSumD,
      localSum, gMaxD, localMax, rowsMax, ownedIdx, LEx, fexpEx, P_MIN,
      Finset.sum_range_succ]

/-- C1 (amended): for every frame, the sum over all processes' owned
orientations equals 1 exactly *after the division by the global
normalizer and before the final floor line*; the `src/emc.py` zeroing
floor then lowers the sum by at most `num_rot * P_MIN`, and the
`src/cupadman/emc.py` clip raises it by at most `num_rot * P_MIN`
(`num_rot = k*m`). -/
theorem C1_theorem (k m : ℕ) (L : ℕ → ℕ → ℚ) (fexp : ℚ → ℚ) (d : ℕ)
    (h0 : 0 < k) (hm : 0 < m) (hpos : ∀ x : ℚ, 0 < fexp x) :
    (∑ ρ ∈ Finset.range k, ∑ i ∈ Finset.range m,
        divP k m L fexp (ownedIdx k ρ i) d) = 1
  ∧ 1 - (k : ℚ) * m * P_MIN
      ≤ (∑ ρ ∈ Finset.range k, ∑ i ∈ Finset.range m,
          normPemc k m L fexp (ownedIdx k ρ i) d)
  ∧ (∑ ρ ∈ Finset.range k, ∑ i ∈ Finset.range m,
        normPemc k m L fexp (ownedIdx k ρ i) d) ≤ 1
  ∧ 1 ≤ (∑ ρ ∈ Finset.range k, ∑ i ∈ Finset.range m,
        normPcup k m L fexp (ownedIdx k ρ i) d)
  ∧ (∑ ρ ∈ Finset.range k, ∑ i ∈ Finset.range m,
        normPcup k m L fexp (ownedIdx k ρ i) d) ≤ 1 + (k : ℚ) * m * P_MIN := by
  have hS : gSumD k m L fexp d
      = ∑ ρ ∈ Finset.range k, ∑ i ∈ Finset.range m, expP k m L fexp (ownedIdx k ρ i) d := rfl
  have hSpos : 0 < gSumD k m L fexp d := by
    rw [hS]
    refine Finset.sum_pos (fun ρ _ => Finset.sum_pos (fun i _ => hpos _) ?_) ?_
    · exact ⟨0, Finset.mem_range.mpr hm⟩
    · exact ⟨0, Finset.mem_range.mpr h0⟩
  have h1 : (∑ ρ ∈ Finset.range k, ∑ i ∈ Finset.range m,
      divP k m L fexp (ownedIdx k ρ i) d) = 1 := by
    unfold divP
    calc ∑ ρ ∈ Finset.range k, ∑ i ∈ Finset.range m,
          expP k m L fexp (ownedIdx k ρ i) d / gSumD k m L fexp d
        = ∑ ρ ∈ Finset.range k,
            (∑ i ∈ Finset.range m, expP k m L fexp (ownedIdx k ρ i) d)
              / gSumD k m L fexp d :=
          Finset.sum_congr rfl fun ρ _ => (Finset.sum_div _ _ _).symm
      _ = (∑ ρ ∈ Finset.range k, ∑ i ∈ Finset.range m,
            expP k m L fexp (ownedIdx k ρ i) d) / gSumD k m L fexp d :=
          (Finset.sum_div _ _ _).symm
      _ = gSumD k m L fexp d / gSumD k m L fexp d := by rw [← hS]
      _ = 1 := div_self (ne_of_gt hSpos)
  have hdnn : ∀ r : ℕ, 0 ≤ divP k m L fexp r d :=
    fun r => le_of_lt (div_pos (hpos _) hSpos)
  have hconst : (∑ ρ ∈ Finset.range k, ∑ i ∈ Finset.range m, P_MIN)
      = (k : ℚ) * m * P_MIN := by
    simp [Finset.sum_const, Finset.card_range, mul_assoc]
  refine ⟨h1, ?_, ?_, ?_, ?_⟩
  · have hpt : ∀ ρ ∈ Finset.range k, ∀ i ∈ Finset.range m,
        divP k m L fexp (ownedIdx k ρ i) d - P_MIN
          ≤ normPemc k m L fexp (ownedIdx k ρ i) d :=
      fun ρ _ i _ => sub_le_emcFloor _
    calc 1 - (k : ℚ) * m * P_MIN
        = (∑ ρ ∈ Finset.range k, ∑ i ∈ Finset.range m,
            (divP k m L fexp (ownedIdx k ρ i) d - P_MIN)) := by
          rw [Finset.sum_congr rfl fun ρ _ => Finset.sum_sub_distrib,
            Finset.sum_sub_distrib, h1, hconst]
      _ ≤ _ :=
          Finset.sum_le_sum fun ρ hρ => Finset.sum_le_sum fun i hi => hpt ρ hρ i hi
  · calc (∑ ρ ∈ Finset.range k, ∑ i ∈ Finset.range m,
          normPemc k m L fexp (ownedIdx k ρ i) d)
        ≤ (∑ ρ ∈ Finset.range k, ∑ i ∈ Finset.range m,
            divP k m L fexp (ownedIdx k ρ i) d) :=
          Finset.sum_le_sum fun ρ _ => Finset.sum_le_sum fun i _ =>
            emcFloor_le _ (hdnn _)
      _ = 1 := h1
  · calc (1:ℚ) = ∑ ρ ∈ Finset.range k, ∑ i ∈ Finset.range m,
          divP k m L fexp (ownedIdx k ρ i) d := h1.symm
      _ ≤ _ :=
          Finset.sum_le_sum fun ρ _ => Finset.sum_le_sum fun i _ => le_cupFloor _
  · calc (∑ ρ ∈ Finset.range k, ∑ i ∈ Finset.range m,
          normPcup k m L fexp (ownedIdx k ρ i) d)
        ≤ (∑ ρ ∈ Finset.range k, ∑ i ∈ Finset.range m,
            (divP k m L fexp (ownedIdx k ρ i) d + P_MIN)) :=
          Finset.sum_le_sum fun ρ _ => Finset.sum_le_sum fun i _ =>
            cupFloor_le _ (hdnn _)
      _ = 1 + (k : ℚ) * m * P_MIN := by
          rw [Finset.sum_congr rfl fun ρ _ => Finset.sum_add_distrib,
            Finset.sum_add_distrib, h1, hconst]

/-- C1 witness: the amended normalization invariant at a concrete
one-process, two-orientation, uniform instance. -/
theorem C1_witness :
    (0:ℕ) < 1 ∧ (0:ℕ) < 2
  ∧ (∑ ρ ∈ Finset.range 1, ∑ i ∈ Finset.range 2,
      divP 1 2 (fun _ _ => 0) (fun _ => 1) (ownedIdx 1 ρ i) 0) = 1 :=
  ⟨by decide, by decide,
    (C1_theorem 1 2 (fun _ _ => 0) (fun _ => 1) 0 (by decide) (by decide)
      (fun _ => one_pos)).1⟩

/-- C2: the `src/cupadman/emc.py` clip leaves every entry `≥ P_MIN`; the
`src/emc.py` assignment instead sets every sub-threshold entry to exactly
`0`, so each entry is either `0` or `≥ P_MIN` — never strictly between. -/
theorem C2_theorem (k m : ℕ) (L : ℕ → ℕ → ℚ) (fexp : ℚ → ℚ) (r d : ℕ) :
    P_MIN ≤ normPcup k m L fexp r d
  ∧ (normPemc k m L fexp r d = 0 ∨ P_MIN ≤ normPemc k m L fexp r d) := by
  constructor
  · exact le_max_left _ _
  · unfold normPemc emcFloor
    split
    · exact Or.inl rfl
    next h => exact Or.inr (le_of_not_lt h)

/-- C2 counterexample: in `src/emc.py` a strictly positive normalized
probability below the floor is set to `0 < P_MIN`, so the claim that every
entry ends `≥ ε` is false for that source. -/
theorem C2_counterexample :
    0 < divP 1 2 LEx fexpEx 1 0
  ∧ normPemc 1 2 LEx fexpEx 1 0 = 0
  ∧ normPemc 1 2 LEx fexpEx 1 0 < P_MIN := by
  refine ⟨?_, ?_, ?_⟩ <;>
    norm_num [normPemc, emcFloor, divP, expP, gSumD, localSum, gMaxD, localMax,
      rowsMax, ownedIdx, LEx, fexpEx, P_MIN, Finset.sum_range_succ]

/-! ## A concrete one-orientation iteration

`Ex1`: `size = 2`, one orientation (angle `0`, so `cos = 1`, `sin = 0`),
one frame with a single photon at pixel `0`, uniform prior model `5`,
scaling off.  The abstract render kernel returns the all-zero log-view and
`fexp` is an admissible exponential model (positive, `fexp 0 = 1`; it is
only ever evaluated at `0` here). -/

def Ex1 : EmcInput where
  size := 2
  num_rot := 1
  num_data := 1
  ones := fun _ => 1
  multi := fun _ => 0
  o_acc := fun _ => 0
  m_acc := fun _ => 0
  p_o := fun _ => 0
  p_m := fun _ => 0
  c_m := fun _ => 0
  scales := fun _ => 1
  model0 := fun _ => 5
  sliceGen := fun _ _ _ => 0
  cosr := fun _ => 1
  sinr := fun _ => 0
  fexp := fun x => if x = 0 then 1 else 1/2

theorem Ex1_logP : logP Ex1 0 0 = -20 := by
  norm_num [logP, probVal, lviewI, msum, Ex1, Finset.sum_range_succ]

theorem Ex1_normP00 : normP Ex1 1 0 0 = 1 := by
  norm_num [normP, normPemc, mI, divP, expP, gSumD, localSum, gMaxD, localMax, rowsMax,
    ownedIdx, emcFloor, P_MIN, Ex1_logP, Ex1, Finset.sum_range_succ]

theorem Ex1_pNorm : pNormI Ex1 1 0 = 1 := by
  unfold pNormI
  rw [show Ex1.num_data = 1 from rfl, Finset.sum_range_succ, Finset.sum_range_zero,
    Ex1_normP00]
  norm_num

theorem Ex1_rankAccumW : (rankAccum Ex1 1 0).2 1 = 0 := by
  have hlist : ownedList 0 1 Ex1.num_rot = [0] := by decide
  unfold rankAccum
  rw [hlist, List.foldl_cons, List.foldl_nil]
  unfold updStep
  rw [if_neg (by rw [Ex1_pNorm]; norm_num)]
  have hW : sliceMergeW (Ex1.cosr 0) (Ex1.sinr 0) Ex1.size 1 = 0 := by
    show sliceMergeW 1 0 2 1 = 0
    norm_num [sliceMergeW, smPixW, smSkip, rotX, rotY, cenQ, fracPart,
      Finset.sum_range_succ, Int.floor_zero, Int.floor_one]
  dsimp only
  rw [hW]
  norm_num

theorem Ex1_redW : redW Ex1 1 1 = 0 := by
  unfold redW
  rw [Finset.sum_range_succ, Finset.sum_range_zero, Ex1_rankAccumW]
  norm_num

theorem Ex1_final : finalModel Ex1 1 1 = 0 :=
  finalModel_eq_zero_of_redW_eq_zero Ex1 1 (by decide) (by decide) (by decide) 1 Ex1_redW

/-- C3 counterexample: in `Ex1` model cell `1` receives zero summed
interpolation weight, yet after the iteration it holds `0`, not the prior
iteration's value `5`: `_update_model` zeroes `dmodel`, `_normalize_model`
then overwrites `self.model` with the reduced accumulator and divides only
where the weight is positive, so unsupported cells keep the *accumulator's*
value `0`, not the old model. -/
theorem C3_counterexample :
    redW Ex1 1 1 = 0 ∧ Ex1.model0 1 = 5 ∧ finalModel Ex1 1 1 = 0
      ∧ finalModel Ex1 1 1 ≠ Ex1.model0 1 := by
  refine ⟨Ex1_redW, rfl, Ex1_final, ?_⟩
  rw [Ex1_final, show Ex1.model0 1 = 5 from rfl]
  norm_num

/-- C3 (amended): after the end-of-iteration reduce and normalize, every
model cell whose summed interpolation weight is zero holds `0` — the value
the accumulator was reset to at the start of `_update_model` — rather than
the prior iteration's model value. -/
theorem C3_theorem (E : EmcInput) (k : ℕ) (hk : k ∣ E.num_rot) (h0 : 0 < k)
    (hn : 0 < E.num_rot) (u : ℕ) (hw : redW E k u = 0) : finalModel E k u = 0 :=
  finalModel_eq_zero_of_redW_eq_zero E k hk h0 hn u hw

/-- C3 witness: the amended statement exercised on `Ex1` at cell `1`. -/
theorem C3_witness :
    1 ∣ Ex1.num_rot ∧ (0:ℕ) < 1 ∧ 0 < Ex1.num_rot ∧ redW Ex1 1 1 = 0
      ∧ finalModel Ex1 1 1 = 0 :=
  ⟨by decide, by decide, by decide, Ex1_redW,
    C3_theorem Ex1 1 (by decide) (by decide) (by decide) 1 Ex1_redW⟩

/-- `Ex2`: as `Ex1` but with two orientations (angles `0` and `π`, whose
cosines/sines are the exact rationals `1, -1` and `0, 0`), for exercising
a two-process run. -/
def Ex2 : EmcInput where
  size := 2
  num_rot := 2
  num_data := 1
  ones := fun _ => 1
  multi := fun _ => 0
  o_acc := fun _ => 0
  m_acc := fun _ => 0
  p_o := fun _ => 0
  p_m := fun _ => 0
  c_m := fun _ => 0
  scales := fun _ => 1
  model0 := fun _ => 5
  sliceGen := fun _ _ _ => 0
  cosr := fun r => if r = 0 then 1 else -1
  sinr := fun _ => 0
  fexp := fun x => if x = 0 then 1 else 1/2

/-- C4: for any iteration input, any process count `k` that divides the
orientation count produces exactly the final broadcast model of the
single-process run: the striped E-step, the two-level `Allreduce`
normalization, and the `Reduce`-to-root M-step accumulation together
compute the same global per-orientation quantities as one process does. -/
theorem C4_theorem (E : EmcInput) (k : ℕ) (hk : k ∣ E.num_rot) (h0 : 0 < k)
    (hn : 0 < E.num_rot) (u : ℕ) : finalModel E k u = finalModel E 1 u :=
  finalModel_eq_single E k hk h0 hn u

/-- C4 witness: a two-process, two-orientation run agrees with the
single-process run on `Ex2`. -/
theorem C4_witness :
    2 ∣ Ex2.num_rot ∧ (0:ℕ) < 2 ∧ 0 < Ex2.num_rot
      ∧ finalModel Ex2 2 1 = finalModel Ex2 1 1 :=
  ⟨by decide, by decide, by decide, C4_theorem Ex2 2 (by decide) (by decide) (by decide) 1⟩

/-! ## C5: partitioner memory bound -/

theorem numBlocks_ex : numBlocks 1 5 25 0 = 2 := by
  have h : memFrac 1 5 25 0 / MEM_THRESH = ((2:ℤ):ℚ) := by
    norm_num [memFrac, MEM_THRESH]
  unfold numBlocks
  rw [h, Int.ceil_intCast]
  rfl

/-- C5 counterexample: with one owned orientation, 5 frames, 25 bytes of
free device memory, the partitioner makes 2 blocks of sizes `[3, 2]`; the
leading block needs `1*3*8 = 24` bytes, exceeding
`MEM_THRESH * 25 = 20` — the rounded-up block size breaks the claimed
threshold bound. -/
theorem C5_counterexample :
    3 ∈ blockSizes 5 (numBlocks 1 5 25 0)
  ∧ ¬ ((1:ℚ) * 3 * 8 ≤ MEM_THRESH * ((25:ℚ) - (0:ℚ))) := by
  constructor
  · rw [numBlocks_ex]
    decide
  · norm_num [MEM_THRESH]

/-- C5 (amended): every block the partitioner produces satisfies the
threshold bound relaxed by one frame row: the probability sub-matrix
memory `num_rot_p * block * 8` is at most
`MEM_THRESH * (mem_size - dset.mem) + num_rot_p * 8`. -/
theorem C5_theorem (nrp D ms dm : ℕ) (hnb : 1 ≤ numBlocks nrp D ms dm)
    (b : ℕ) (hb : b ∈ blockSizes D (numBlocks nrp D ms dm)) :
    (nrp : ℚ) * b * 8 ≤ MEM_THRESH * ((ms : ℚ) - (dm : ℚ)) + (nrp : ℚ) * 8 :=
  blockMem_le nrp D ms dm hnb b hb

/-- C5 witness: the amended bound at the counterexample's configuration. -/
theorem C5_witness :
    1 ≤ numBlocks 1 5 25 0
  ∧ 3 ∈ blockSizes 5 (numBlocks 1 5 25 0)
  ∧ (1 : ℚ) * 3 * 8 ≤ MEM_THRESH * ((25 : ℚ) - (0 : ℚ)) + (1 : ℚ) * 8 :=
  ⟨by rw [numBlocks_ex]; decide, by rw [numBlocks_ex]; decide,
    C5_theorem 1 5 25 0 (by rw [numBlocks_ex]; decide) 3
      (by rw [numBlocks_ex]; decide)⟩

/-! ## C6: stale trailing columns -/

theorem mergeEx0 (probR : ℕ → ℚ) :
    gridMerge (gridT 1) 1 (fun _ => 1) (fun _ => 0) (fun _ => 0) (fun _ => 0)
      (fun _ => 0) (fun _ => 0) (fun _ => 0) probR (fun _ => 0) 0 = probR 0 := by
  rw [gridMerge_eq_exact (gridT 1) 1 (ndata_le_gridT 1)]
  unfold gridMerge
  rw [show List.range 1 = [0] from rfl, List.foldl_cons, List.foldl_nil]
  unfold mergeThread
  rw [if_neg (by omega)]
  norm_num [List.range', addAt, Function.update_apply]

/-- Two width-2 probability buffers agreeing on the single in-block column
`0`; column `1` holds stale data from the previous (two-frame) block. -/
def P6a : ℕ → ℕ → ℚ := fun _ d => if d = 0 then 1 else 0

def P6b : ℕ → ℕ → ℚ := fun _ d => if d = 0 then 1 else 5

theorem pNormFull_a : pNormFull P6a 2 0 = 1 := by
  norm_num [pNormFull, P6a, Finset.sum_range_succ]

theorem pNormFull_b : pNormFull P6b 2 0 = 6 := by
  norm_num [pNormFull, P6b, Finset.sum_range_succ]

theorem cupContribM_a :
    cupContribM P6a 2 1 (fun _ => 1) (fun _ => 0) (fun _ => 0) (fun _ => 0)
      (fun _ => 0) (fun _ => 0) (fun _ => 0) (fun _ => 0) 1 0 2 0 0 = 1 := by
  unfold cupContribM
  rw [if_neg (by rw [pNormFull_a]; norm_num)]
  norm_num [sliceMergeM, smPixW, smSkip, rotX, rotY, cenQ, fracPart,
    Finset.sum_range_succ, Int.floor_zero, Int.floor_one, mergeEx0, pNormFull_a, P6a]

theorem cupContribM_b :
    cupContribM P6b 2 1 (fun _ => 1) (fun _ => 0) (fun _ => 0) (fun _ => 0)
      (fun _ => 0) (fun _ => 0) (fun _ => 0) (fun _ => 0) 1 0 2 0 0 = 1/6 := by
  unfold cupContribM
  rw [if_neg (by rw [pNormFull_b]; norm_num)]
  norm_num [sliceMergeM, smPixW, smSkip, rotX, rotY, cenQ, fracPart,
    Finset.sum_range_succ, Int.floor_zero, Int.floor_one, mergeEx0, pNormFull_b, P6b]

/-- C6 counterexample: two probability buffers that agree on every column
of the current 1-frame block but differ in the stale trailing column
produce different M-step model contributions (`1` versus `1/6`), because
`p_norm = self.prob.sum(1)` sums the full allocated width; the stale
column is *not* neutral for the M-step. -/
theorem C6_counterexample :
    P6a 0 0 = P6b 0 0
  ∧ pNormFull P6a 2 0 = 1 ∧ pNormFull P6b 2 0 = 6
  ∧ cupContribM P6a 2 1 (fun _ => 1) (fun _ => 0) (fun _ => 0) (fun _ => 0)
      (fun _ => 0) (fun _ => 0) (fun _ => 0) (fun _ => 0) 1 0 2 0 0
    ≠ cupContribM P6b 2 1 (fun _ => 1) (fun _ => 0) (fun _ => 0) (fun _ => 0)
      (fun _ => 0) (fun _ => 0) (fun _ => 0) (fun _ => 0) 1 0 2 0 0 := by
  refine ⟨by norm_num [P6a, P6b], pNormFull_a, pNormFull_b, ?_⟩
  rw [cupContribM_a, cupContribM_b]
  norm_num

/-- C6 (amended): what the code does guarantee — the per-frame
normalization of a column depends only on that column of the
log-probability matrix (stale trailing columns cannot leak into the
normalization of in-block frames), and `merge_all` reads only the first
`ndata` probability entries (the scatter itself ignores trailing columns);
the leak of P6-style stale data happens solely through
`p_norm = self.prob.sum(1)`. -/
theorem C6_theorem :
    (∀ (k m : ℕ) (L Lt : ℕ → ℕ → ℚ) (fexp : ℚ → ℚ) (r d : ℕ),
      (∀ s : ℕ, L s d = Lt s d) →
        normPemc k m L fexp r d = normPemc k m Lt fexp r d)
  ∧ (∀ (T ndata : ℕ) (ones multi o_acc m_acc p_o p_m c_m : ℕ → ℕ)
      (probR probRt : ℕ → ℚ) (v : ℕ → ℚ),
      (∀ d : ℕ, d < ndata → probR d = probRt d) →
        gridMerge T ndata ones multi o_acc m_acc p_o p_m c_m probR v
          = gridMerge T ndata ones multi o_acc m_acc p_o p_m c_m probRt v) :=
  ⟨fun k m L Lt fexp r d h => normPemc_congr_col k m L Lt fexp r d h,
   fun T ndata ones multi o_acc m_acc p_o p_m c_m probR probRt v h =>
     gridMerge_probR_congr T ndata ones multi o_acc m_acc p_o p_m c_m probR probRt h v⟩

/-- C6 witness: both amended guarantees exercised at concrete inputs. -/
theorem C6_witness :
    normPemc 1 2 LEx fexpEx 0 0 = normPemc 1 2 (fun r d => LEx r d) fexpEx 0 0
  ∧ gridMerge (gridT 1) 1 (fun _ => 1) (fun _ => 0) (fun _ => 0) (fun _ => 0)
      (fun _ => 0) (fun _ => 0) (fun _ => 0) (P6a 0) (fun _ => 0)
    = gridMerge (gridT 1) 1 (fun _ => 1) (fun _ => 0) (fun _ => 0) (fun _ => 0)
      (fun _ => 0) (fun _ => 0) (fun _ => 0) (P6b 0) (fun _ => 0) :=
  ⟨C6_theorem.1 1 2 LEx (fun r d => LEx r d) fexpEx 0 0 (fun _ => rfl),
   C6_theorem.2 (gridT 1) 1 _ _ _ _ _ _ _ (P6a 0) (P6b 0) (fun _ => 0)
     (fun d hd => by
        interval_cases d
        norm_num [P6a, P6b])⟩

/-! ## C7: striping arithmetic -/

/-- C7: a rank's iteration set `range(rank, num_rot, num_proc)` is exactly
the set of orientation indices congruent to the rank modulo the process
count; its `i`-th element is `i*num_proc + rank` (the offset the code uses
to globalize the local arg-max row index); and these globalized indices
are distinct across distinct ranks. -/
theorem C7_theorem (rank k n : ℕ) (h0 : 0 < k) (hr : rank < k) :
    (∀ r : ℕ, r ∈ ownedList rank k n ↔ r < n ∧ r % k = rank)
  ∧ (∀ (i : ℕ) (hi : i < (ownedList rank k n).length),
      (ownedList rank k n).get ⟨i, hi⟩ = i * k + rank)
  ∧ (∀ rank2 i j : ℕ, rank2 < k → rank2 ≠ rank → i * k + rank ≠ j * k + rank2) :=
  ⟨fun r => mem_ownedList rank k n r h0 hr,
   fun i hi => ownedList_get rank k n i hi,
   fun rank2 i j hr2 hne => stripe_disjoint k rank rank2 i j hr hr2 (fun h => hne h.symm)⟩

/-- C7 witness: membership characterization at rank 1 of 2 with 8
orientations. -/
theorem C7_witness :
    (1:ℕ) < 2 ∧ (3 ∈ ownedList 1 2 8 ↔ 3 < 8 ∧ 3 % 2 = 1) :=
  ⟨by decide, (C7_theorem 1 2 8 (by decide) (by decide)).1 3⟩

/-! ## C8: zero-responsibility skip -/

/-- C8: in `_update_model` an orientation whose responsibility sum
`p_norm[i]` is exactly zero is skipped: the step leaves the
`(dmodel, dmweights)` accumulator pair untouched, and the whole loop
computes the same accumulators as the loop over only the
nonzero-responsibility orientations. -/
theorem C8_theorem (E : EmcInput) (k : ℕ) :
    (∀ (acc : (ℕ → ℚ) × (ℕ → ℚ)) (r : ℕ), pNormI E k r = 0 → updStep E k acc r = acc)
  ∧ (∀ (l : List ℕ) (acc : (ℕ → ℚ) × (ℕ → ℚ)),
      l.foldl (updStep E k) acc
        = (l.filter fun r => if pNormI E k r = 0 then false else true).foldl
            (updStep E k) acc) :=
  ⟨fun acc r h => updStep_skip E k acc r h, fun l acc => updRun_filter E k l acc⟩

/-- `Ex0`: the `Ex1` iteration with a degenerate exponential that sends
every probability to `0` — after the zeroing floor, orientation `0`'s
responsibility sum is exactly `0`. -/
def Ex0 : EmcInput := { Ex1 with fexp := fun _ => 0 }

theorem Ex0_pNorm : pNormI Ex0 1 0 = 0 := by
  unfold pNormI
  rw [show Ex0.num_data = 1 from rfl, Finset.sum_range_succ, Finset.sum_range_zero]
  norm_num [normP, normPemc, mI, divP, expP, gSumD, localSum, gMaxD, localMax, rowsMax,
    ownedIdx, emcFloor, P_MIN, Ex0, Ex1, Finset.sum_range_succ]

/-- C8 witness: the skip fires on `Ex0`'s zero-responsibility orientation
and leaves the zeroed accumulators unchanged. -/
theorem C8_witness :
    pNormI Ex0 1 0 = 0
  ∧ updStep Ex0 1 (fun _ => 0, fun _ => 0) 0 = (fun _ => 0, fun _ => 0) :=
  ⟨Ex0_pNorm, (C8_theorem Ex0 1).1 (fun _ => 0, fun _ => 0) 0 Ex0_pNorm⟩

/-! ## C9: block sizes -/

/-- C9: for `num_data` frames in `num_blocks` blocks the schedule's sizes
sum to `num_data`, the first `num_data % num_blocks` blocks carry exactly
one extra frame, any two sizes differ by at most one, and the contiguous
`(b_start, b_start + b)` ranges traversed by the block loop enumerate the
frame indices `0, …, num_data-1` exactly once, in order, with no gap or
overlap. -/
theorem C9_theorem (D nb : ℕ) (h0 : 0 < nb) :
    (blockSizes D nb).sum = D
  ∧ (∀ j : ℕ, j < nb → (blockSizes D nb).getD j 0
      = if j < D % nb then D / nb + 1 else D / nb)
  ∧ (∀ j j2 : ℕ, j < nb → j2 < nb →
      (blockSizes D nb).getD j 0 ≤ (blockSizes D nb).getD j2 0 + 1)
  ∧ ((rangesFrom 0 (blockSizes D nb)).map fun p => List.range' p.1 (p.2 - p.1)).flatten
      = List.range D := by
  refine ⟨blockSizes_sum D nb h0, ?_, ?_, ?_⟩
  · intro j hj
    rw [blockSizes_getD D nb j hj]
    split_ifs <;> omega
  · intro j j2 hj hj2
    rw [blockSizes_getD D nb j hj, blockSizes_getD D nb j2 hj2]
    split_ifs <;> omega
  · rw [rangesFrom_flatten, blockSizes_sum D nb h0]
    exact (List.range_eq_range' D).symm

/-- C9 witness: the schedule `[3, 2]` for 5 frames in 2 blocks. -/
theorem C9_witness : (0:ℕ) < 2 ∧ (blockSizes 5 2).sum = 5 :=
  ⟨by decide, (C9_theorem 5 2 (by decide)).1⟩

/-! ## C10: thread-guard safety -/

/-- C10: launching the rounded-up grid of `ceil(ndata/32)*32` threads,
`calc_prob_all` stores the per-frame log-likelihood in `prob_r[d]` exactly
for `d < ndata` and leaves every other buffer entry untouched, and
`merge_all` performs exactly the scatter of the first `ndata` frames — the
excess threads of the rounded-up grid write nothing. -/
theorem C10_theorem (ndata : ℕ) (lview : ℕ → ℚ)
    (ones multi o_acc m_acc p_o p_m c_m : ℕ → ℕ) (init : ℚ) (scales : ℕ → ℚ)
    (buf : ℕ → ℚ) (probR : ℕ → ℚ) (v : ℕ → ℚ) :
    (∀ j : ℕ, gridCalc (gridT ndata) ndata lview ones multi o_acc m_acc p_o p_m c_m
        init scales buf j
      = if j < ndata then probVal lview ones multi o_acc m_acc p_o p_m c_m init scales j
        else buf j)
  ∧ gridMerge (gridT ndata) ndata ones multi o_acc m_acc p_o p_m c_m probR v
      = gridMerge ndata ndata ones multi o_acc m_acc p_o p_m c_m probR v := by
  constructor
  · intro j
    rw [gridCalc_eq]
    by_cases hj : j < ndata
    · rw [if_pos ⟨lt_of_lt_of_le hj (ndata_le_gridT ndata), hj⟩, if_pos hj]
    · rw [if_neg (by omega), if_neg hj]
  · exact gridMerge_eq_exact (gridT ndata) ndata (ndata_le_gridT ndata) _ _ _ _ _ _ _ _ _

end CuPADMAN
